import Mathlib

/-!
Shallow embedding of the DF2 circle rasterizer
(src/src/df2_circle_benchmark.c and src/src/fair_comparison.c).

Modeling conventions.  Machine integers are Int, with explicit wrapping
(wrap32) at every place where the C program stores into an int32_t value
or performs int32 arithmetic.  The C double computations are modeled in
exact real arithmetic over ℝ, mirroring the source expressions term by
term; conversions from double to machine integers keep the exact C
rounding and truncation rules.  The framebuffer byte array indexed by
y * width + x is modeled as a Boolean function of the coordinates, which
is faithful because every store is guarded by a bounds check that makes
the flat index injective on the touched cells.
-/

/-- Wrap of an integer into the two-complement int32 range.  Used wherever
the C program narrows a value into fixed_t (int32_t). -/
def wrap32 (n : Int) : Int := (n + 2 ^ 31) % 2 ^ 32 - 2 ^ 31

/-- A C cast from double to a signed integer type truncates toward zero.
Models the casts in to_fixed and in the step-count computations. -/
noncomputable def truncInt (x : ℝ) : Int := if 0 ≤ x then ⌊x⌋ else ⌈x⌉

/-- Q16.16 conversion from double, df2_circle_benchmark.c lines 26-28 and
fair_comparison.c line 17: (fixed_t)(d * FP_ONE + (d >= 0 ? 0.5 : -0.5)). -/
noncomputable def to_fixed (d : ℝ) : Int :=
  truncInt (d * 65536 + if 0 ≤ d then 0.5 else -0.5)

/-- Q16.16 to int, df2_circle_benchmark.c lines 30-32 and fair_comparison.c
line 18: (f + FP_HALF) >> FP_BITS.  The int32 addition wraps and the
arithmetic right shift by 16 is floor division by 65536, which for this
positive divisor is the Lean integer division. -/
def fixed_to_int (f : Int) : Int := wrap32 (f + 32768) / 65536

/-- Q16.16 multiply, df2_circle_benchmark.c lines 34-36 and
fair_comparison.c line 19: widen to int64, multiply, arithmetic shift
right by 16, narrow back to int32.  The int64 product of two int32 values
is exact, the shift is floor division (the Lean integer division, as the
divisor is positive), the narrowing cast wraps. -/
def fp_mul (a b : Int) : Int := wrap32 (a * b / 65536)

/-- The pixel surface: width, height, and the pixel store as a Boolean
function of (column, row).  Models the Framebuffer of
df2_circle_benchmark.c lines 42-45 and the FB of fair_comparison.c. -/
structure Framebuffer where
  width : Int
  height : Int
  pix : Int → Int → Bool

/-- fb_create / mkfb: calloc gives an all-zero pixel store. -/
def fb_create (w h : Int) : Framebuffer := ⟨w, h, fun _ _ => false⟩

/-- Store 1 at one pixel cell, the effect of fb->pixels[b * fb->width + a] = 1. -/
def setPix (fb : Framebuffer) (a b : Int) : Framebuffer :=
  { fb with pix := fun u v => if u = a ∧ v = b then true else fb.pix u v }

/-- fb_plot, df2_circle_benchmark.c lines 64-70, identical to plot of
fair_comparison.c lines 26-29: translate by (width / 2, height / 2), then
store 1 if inside the bounds, else do nothing.  The C division width / 2
truncates toward zero; every surface in the program has nonnegative
dimensions, where that agrees with Lean integer division. -/
def fb_plot (fb : Framebuffer) (x y : Int) : Framebuffer :=
  let a := x + fb.width / 2
  let b := y + fb.height / 2
  if 0 ≤ a ∧ a < fb.width ∧ 0 ≤ b ∧ b < fb.height then setPix fb a b
  else fb

/-- fb_plot8, df2_circle_benchmark.c lines 73-82: the eight symmetric
plots.  plot8 of fair_comparison.c lines 31-34 is the same with
cx = cy = 0. -/
def fb_plot8 (fb : Framebuffer) (cx cy x y : Int) : Framebuffer :=
  fb_plot (fb_plot (fb_plot (fb_plot (fb_plot (fb_plot (fb_plot (fb_plot fb
    (cx + x) (cy + y))
    (cx - x) (cy + y))
    (cx + x) (cy - y))
    (cx - x) (cy - y))
    (cx + y) (cy + x))
    (cx - y) (cy + x))
    (cx + y) (cy - x))
    (cx - y) (cy - x)

/-- The eight points handed to fb_plot by fb_plot8, in source order. -/
def plot8Points (cx cy x y : Int) : List (Int × Int) :=
  [(cx + x, cy + y), (cx - x, cy + y), (cx + x, cy - y), (cx - x, cy - y),
   (cx + y, cy + x), (cx - y, cy + x), (cx + y, cy - x), (cx - y, cy - x)]

/-- fb_count_pixels / count_px: sum of the 0/1 pixel bytes, i.e. the number
of set cells of the grid. -/
def fb_count_pixels (fb : Framebuffer) : Int :=
  (((Finset.range fb.width.toNat) ×ˢ (Finset.range fb.height.toNat)).filter
    (fun p => fb.pix (p.1 : Int) (p.2 : Int) = true)).card

/-- C round: round half away from zero, then the (int) cast of the already
integral double is exact. -/
noncomputable def roundC (t : ℝ) : Int := if 0 ≤ t then ⌊t + 0.5⌋ else ⌈t - 0.5⌉

/-- Loop of circle_df2_float_sym8, df2_circle_benchmark.c lines 119-132,
with a fuel bound since the C loop is while(1); none means the fuel ran
out before the octant was finished. -/
noncomputable def df2FloatLoop (cx cy : Int) (coeff scale : ℝ) :
    Nat → Framebuffer → ℝ → ℝ → Int → Option (Framebuffer × Int)
  | 0, _, _, _, _ => none
  | fuel + 1, fb, w0, w1, pixels =>
    let x := roundC w1
    let y := roundC ((w1 - w0) * scale)
    if y > x then some (fb, pixels)
    else df2FloatLoop cx cy coeff scale fuel (fb_plot8 fb cx cy x y) w1
      (coeff * w1 - w0) (pixels + 8)

/-- circle_df2_float_sym8, df2_circle_benchmark.c lines 106-135. -/
noncomputable def circle_df2_float_sym8 (fuel : Nat) (fb : Framebuffer)
    (cx cy r : Int) : Option (Framebuffer × Int) :=
  if r ≤ 0 then some (fb, 0)
  else
    let omega : ℝ := 1 / (1.5 * (r : ℝ))
    df2FloatLoop cx cy (2 * Real.cos omega) (-1 / omega) fuel fb
      ((r : ℝ) * Real.cos omega) (r : ℝ) 0

/-- Loop of circle_df2_fixed_sym8, df2_circle_benchmark.c lines 153-165.
The subtraction w1 - w0 and the subtraction after fp_mul are int32
arithmetic, hence wrapped. -/
def df2FixedLoop (cx cy : Int) (coeff scale : Int) :
    Nat → Framebuffer → Int → Int → Int → Option (Framebuffer × Int)
  | 0, _, _, _, _ => none
  | fuel + 1, fb, w0, w1, pixels =>
    let x := fixed_to_int w1
    let y := fixed_to_int (fp_mul (wrap32 (w1 - w0)) scale)
    if y > x then some (fb, pixels)
    else df2FixedLoop cx cy coeff scale fuel (fb_plot8 fb cx cy x y) w1
      (wrap32 (fp_mul coeff w1 - w0)) (pixels + 8)

/-- circle_df2_fixed_sym8, df2_circle_benchmark.c lines 141-168. -/
noncomputable def circle_df2_fixed_sym8 (fuel : Nat) (fb : Framebuffer)
    (cx cy r : Int) : Option (Framebuffer × Int) :=
  if r ≤ 0 then some (fb, 0)
  else
    let omega : ℝ := 1 / (1.5 * (r : ℝ))
    df2FixedLoop cx cy (to_fixed (2 * Real.cos omega)) (to_fixed (-1 / omega))
      fuel fb (to_fixed ((r : ℝ) * Real.cos omega)) (to_fixed (r : ℝ)) 0

/-- Loop of circle_coupled_float_sym8, df2_circle_benchmark.c lines 186-200. -/
noncomputable def coupledFloatLoop (cx cy : Int) (c s : ℝ) :
    Nat → Framebuffer → ℝ → ℝ → Int → Option (Framebuffer × Int)
  | 0, _, _, _, _ => none
  | fuel + 1, fb, x, y, pixels =>
    let ix := roundC x
    let iy := roundC y
    if iy > ix then some (fb, pixels)
    else coupledFloatLoop cx cy c s fuel (fb_plot8 fb cx cy ix iy)
      (x * c - y * s) (x * s + y * c) (pixels + 8)

/-- circle_coupled_float_sym8, df2_circle_benchmark.c lines 174-203. -/
noncomputable def circle_coupled_float_sym8 (fuel : Nat) (fb : Framebuffer)
    (cx cy r : Int) : Option (Framebuffer × Int) :=
  if r ≤ 0 then some (fb, 0)
  else
    let omega : ℝ := 1 / (1.5 * (r : ℝ))
    coupledFloatLoop cx cy (Real.cos omega) (Real.sin omega) fuel fb (r : ℝ) 0 0

/-- Loop of circle_coupled_fixed_sym8, df2_circle_benchmark.c lines 221-234. -/
def coupledFixedLoop (cx cy : Int) (c s : Int) :
    Nat → Framebuffer → Int → Int → Int → Option (Framebuffer × Int)
  | 0, _, _, _, _ => none
  | fuel + 1, fb, x, y, pixels =>
    let ix := fixed_to_int x
    let iy := fixed_to_int y
    if iy > ix then some (fb, pixels)
    else coupledFixedLoop cx cy c s fuel (fb_plot8 fb cx cy ix iy)
      (wrap32 (fp_mul x c - fp_mul y s)) (wrap32 (fp_mul x s + fp_mul y c))
      (pixels + 8)

/-- circle_coupled_fixed_sym8, df2_circle_benchmark.c lines 209-237. -/
noncomputable def circle_coupled_fixed_sym8 (fuel : Nat) (fb : Framebuffer)
    (cx cy r : Int) : Option (Framebuffer × Int) :=
  if r ≤ 0 then some (fb, 0)
  else
    let omega : ℝ := 1 / (1.5 * (r : ℝ))
    coupledFixedLoop cx cy (to_fixed (Real.cos omega)) (to_fixed (Real.sin omega))
      fuel fb (to_fixed (r : ℝ)) 0 0

/-- Loop of circle_bresenham, df2_circle_benchmark.c lines 251-262. -/
def bresLoop (cx cy : Int) :
    Nat → Framebuffer → Int → Int → Int → Int → Option (Framebuffer × Int)
  | 0, _, _, _, _, _ => none
  | fuel + 1, fb, x, y, d, pixels =>
    if x ≤ y then
      let fb2 := fb_plot8 fb cx cy x y
      if d < 0 then bresLoop cx cy fuel fb2 (x + 1) y (d + 4 * x + 6) (pixels + 8)
      else bresLoop cx cy fuel fb2 (x + 1) (y - 1) (d + 4 * (x - y) + 10) (pixels + 8)
    else some (fb, pixels)

/-- circle_bresenham, df2_circle_benchmark.c lines 243-265. -/
def circle_bresenham (fuel : Nat) (fb : Framebuffer) (cx cy r : Int) :
    Option (Framebuffer × Int) :=
  if r ≤ 0 then some (fb, 0)
  else bresLoop cx cy fuel fb 0 r (3 - 2 * r) 0

/-- Loop of df2_full, fair_comparison.c lines 48-57: a for loop over a
precomputed step count; each step writes the translated sample directly
into the pixel array when it is inside the bounds and not yet set,
counting only fresh stores in drawn. -/
def df2FullLoop (coeff scale : Int) :
    Nat → Framebuffer → Int → Int → Int → Framebuffer × Int
  | 0, fb, _, _, drawn => (fb, drawn)
  | n + 1, fb, w0, w1, drawn =>
    let x := fixed_to_int w1
    let y := fixed_to_int (fp_mul (wrap32 (w1 - w0)) scale)
    let px := x + fb.width / 2
    let py := y + fb.height / 2
    let w2 := wrap32 (fp_mul coeff w1 - w0)
    if 0 ≤ px ∧ px < fb.width ∧ 0 ≤ py ∧ py < fb.height then
      if fb.pix px py then df2FullLoop coeff scale n fb w1 w2 drawn
      else df2FullLoop coeff scale n (setPix fb px py) w1 w2 (drawn + 1)
    else df2FullLoop coeff scale n fb w1 w2 drawn

/-- df2_full, fair_comparison.c lines 39-59.  steps is the C expression
(int)(2.0 * M_PI / omega) + 10. -/
noncomputable def df2_full (fb : Framebuffer) (r : Int) : Framebuffer × Int :=
  if r ≤ 0 then (fb, 0)
  else
    let omega : ℝ := 1 / (1.5 * (r : ℝ))
    let steps : Nat := (truncInt (2 * Real.pi / omega) + 10).toNat
    df2FullLoop (to_fixed (2 * Real.cos omega)) (to_fixed (-1 / omega)) steps fb
      (to_fixed ((r : ℝ) * Real.cos omega)) (to_fixed (r : ℝ)) 0

/-- df2_sym8, fair_comparison.c lines 62-78: the same loop as
circle_df2_fixed_sym8 with center (0, 0) and no pixel counter; the return
value is count_px of the final surface. -/
noncomputable def df2_sym8 (fuel : Nat) (fb : Framebuffer) (r : Int) :
    Option (Framebuffer × Int) :=
  if r ≤ 0 then some (fb, 0)
  else
    let omega : ℝ := 1 / (1.5 * (r : ℝ))
    (df2FixedLoop 0 0 (to_fixed (2 * Real.cos omega)) (to_fixed (-1 / omega))
      fuel fb (to_fixed ((r : ℝ) * Real.cos omega)) (to_fixed (r : ℝ)) 0).map
      (fun p => (p.1, fb_count_pixels p.1))

/-- Loop of analyze_stability, df2_circle_benchmark.c lines 320-328: the
running maximum and minimum of sqrt(w0 * w0 + w1 * w1) over the run. -/
noncomputable def stabLoop (coeff : ℝ) :
    Nat → ℝ → ℝ → ℝ → ℝ → ℝ × ℝ × ℝ × ℝ
  | 0, w0, w1, maxAmp, minAmp => (w0, w1, maxAmp, minAmp)
  | n + 1, w0, w1, maxAmp, minAmp =>
    let amp := Real.sqrt (w0 * w0 + w1 * w1)
    stabLoop coeff n w1 (coeff * w1 - w0) (max maxAmp amp) (min minAmp amp)

/-- analyze_stability, df2_circle_benchmark.c lines 307-331, returning the
drift ratio max_amp / min_amp it stores through the out parameter. -/
noncomputable def analyze_stability (r revolutions : Int) : ℝ :=
  let omega : ℝ := 1 / (1.5 * (r : ℝ))
  let coeff : ℝ := 2 * Real.cos omega
  let w0 : ℝ := (r : ℝ) * Real.cos omega
  let w1 : ℝ := (r : ℝ)
  let initial_amp : ℝ := Real.sqrt (w0 * w0 + w1 * w1)
  let steps : Nat := (truncInt ((revolutions : ℝ) * 2 * Real.pi / omega)).toNat
  let res := stabLoop coeff steps w0 w1 initial_amp initial_amp
  res.2.2.1 / res.2.2.2

/-- Critical radius for a fractional bit count, df2_circle_benchmark.c
line 452: 0.47 * pow(2.0, bits / 2.0). -/
noncomputable def criticalRadius (bits : Int) : ℝ :=
  0.47 * (2 : ℝ) ^ ((bits : ℝ) / 2)

/-! Definitions written from the words of the specification, used to state
the refinement claims about the engine.  They are compared against the
embeddings above, which were transcribed from the source. -/

/-- From the spec: the angular step omega = 1 / (1.5 * radius). -/
noncomputable def spec_omega (r : Int) : ℝ := 1 / (1.5 * (r : ℝ))

/-- From the spec: the recurrence multiplier coeff = 2 * cos(omega). -/
noncomputable def spec_coeff (r : Int) : ℝ := 2 * Real.cos (spec_omega r)

/-- From the spec: the scale factor scale = -1 / omega. -/
noncomputable def spec_scale (r : Int) : ℝ := -1 / spec_omega r

/-- From the spec: DF2 state (w[n-2], w[n-1]) in real arithmetic, started
at (radius * cos(omega), radius) and advanced by the one-multiply step
w[n] = coeff * w[n-1] - w[n-2]. -/
noncomputable def specFloatState (r : Int) : Nat → ℝ × ℝ
  | 0 => ((r : ℝ) * Real.cos (spec_omega r), (r : ℝ))
  | n + 1 => ((specFloatState r n).2,
      spec_coeff r * (specFloatState r n).2 - (specFloatState r n).1)

/-- From the spec: the emitted sample x = round(w[n-1]),
y = round((w[n-1] - w[n-2]) * scale), in real arithmetic. -/
noncomputable def specFloatSample (r : Int) (n : Nat) : Int × Int :=
  (roundC (specFloatState r n).2,
   roundC (((specFloatState r n).2 - (specFloatState r n).1) * spec_scale r))

/-- From the spec: the Q16.16 image of the recurrence multiplier. -/
noncomputable def specFixedCoeff (r : Int) : Int := to_fixed (spec_coeff r)

/-- From the spec: the Q16.16 image of the scale factor. -/
noncomputable def specFixedScale (r : Int) : Int := to_fixed (spec_scale r)

/-- From the spec: DF2 state in Q16.16 arithmetic, started at the fixed
images of (radius * cos(omega), radius) and advanced by the one-multiply
step in int32 arithmetic. -/
noncomputable def specFixedState (r : Int) : Nat → Int × Int
  | 0 => (to_fixed ((r : ℝ) * Real.cos (spec_omega r)), to_fixed (r : ℝ))
  | n + 1 => ((specFixedState r n).2,
      wrap32 (fp_mul (specFixedCoeff r) (specFixedState r n).2 - (specFixedState r n).1))

/-- From the spec: the emitted sample of the fixed DF2 sweep. -/
noncomputable def specFixedSample (r : Int) (n : Nat) : Int × Int :=
  (fixed_to_int (specFixedState r n).2,
   fixed_to_int (fp_mul (wrap32 ((specFixedState r n).2 - (specFixedState r n).1))
     (specFixedScale r)))

/-- From the spec: a single-octant sweep driver over an abstract sample
stream: plot the eight-way expansion of sample n while its (x, y) stays
inside the closed first octant test y ≤ x, and stop without plotting at
the first sample with y > x. -/
def octantDrive (sample : Nat → Int × Int) (cx cy : Int) :
    Nat → Nat → Framebuffer → Int → Option (Framebuffer × Int)
  | 0, _, _, _ => none
  | fuel + 1, n, fb, pixels =>
    let xy := sample n
    if xy.2 > xy.1 then some (fb, pixels)
    else octantDrive sample cx cy fuel (n + 1) (fb_plot8 fb cx cy xy.1 xy.2)
      (pixels + 8)

/-- From the spec: a full-circle sweep driver over an abstract sample
stream: run a fixed number of steps, translate each sample by
(width / 2, height / 2), silently drop the ones outside the surface, and
count only the stores into still-clear cells. -/
def fullDrive (sample : Nat → Int × Int) :
    Nat → Nat → Framebuffer → Int → Framebuffer × Int
  | 0, _, fb, drawn => (fb, drawn)
  | n + 1, i, fb, drawn =>
    let xy := sample i
    let px := xy.1 + fb.width / 2
    let py := xy.2 + fb.height / 2
    if 0 ≤ px ∧ px < fb.width ∧ 0 ≤ py ∧ py < fb.height then
      if fb.pix px py then fullDrive sample n (i + 1) fb drawn
      else fullDrive sample n (i + 1) (setPix fb px py) (drawn + 1)
    else fullDrive sample n (i + 1) fb drawn

/-- From the spec: the eight symmetric points of a first-octant sample,
(x, y) and (y, x) under all four sign combinations, each translated by
the circle center. -/
def specExpand (cx cy x y : Int) : List (Int × Int) :=
  [(cx + x, cy + y), (cx + x, cy - y), (cx - x, cy + y), (cx - x, cy - y),
   (cx + y, cy + x), (cx + y, cy - x), (cx - y, cy + x), (cx - y, cy - x)]

/-- A concrete one-cell surface used by the concrete evaluations. -/
def fbEx : Framebuffer := fb_create 1 1

/-! Theorems -/

theorem setPix_idem (g : Framebuffer) (a b : Int) :
    setPix (setPix g a b) a b = setPix g a b := by
  unfold setPix
  congr 1
  funext u v
  by_cases h : u = a ∧ v = b
  · simp [h]
  · simp [h]

theorem fb_plot_idem (g : Framebuffer) (a b : Int) :
    fb_plot (fb_plot g a b) a b = fb_plot g a b := by
  unfold fb_plot
  by_cases h : 0 ≤ a + g.width / 2 ∧ a + g.width / 2 < g.width ∧
      0 ≤ b + g.height / 2 ∧ b + g.height / 2 < g.height
  · simp only [if_pos h, setPix]
    congr 1
    funext u v
    by_cases huv : u = a + g.width / 2 ∧ v = b + g.height / 2
    · simp [huv]
    · simp [huv]
  · simp only [if_neg h]

/-- C10: fb_plot translates the requested point by (width / 2, height / 2),
so the caller origin (0, 0) is the center of the surface; when the
translated point is inside the bounds it sets exactly that one pixel and
changes nothing else, and when it is outside the bounds it leaves the
surface entirely unchanged. -/
theorem fb_plot_spec (fb : Framebuffer) (x y u v : Int) :
    (fb_plot fb x y).width = fb.width ∧
    (fb_plot fb x y).height = fb.height ∧
    ((fb_plot fb x y).pix u v =
      if (0 ≤ x + fb.width / 2 ∧ x + fb.width / 2 < fb.width ∧
          0 ≤ y + fb.height / 2 ∧ y + fb.height / 2 < fb.height) ∧
         u = x + fb.width / 2 ∧ v = y + fb.height / 2
       then true else fb.pix u v) ∧
    (¬ (0 ≤ x + fb.width / 2 ∧ x + fb.width / 2 < fb.width ∧
        0 ≤ y + fb.height / 2 ∧ y + fb.height / 2 < fb.height) →
      fb_plot fb x y = fb) := by
  by_cases h : 0 ≤ x + fb.width / 2 ∧ x + fb.width / 2 < fb.width ∧
      0 ≤ y + fb.height / 2 ∧ y + fb.height / 2 < fb.height
  · refine ⟨by simp [fb_plot, setPix, h], by simp [fb_plot, setPix, h], ?_,
      fun hn => absurd h hn⟩
    by_cases huv : u = x + fb.width / 2 ∧ v = y + fb.height / 2
    · simp [fb_plot, setPix, h, huv]
    · simp [fb_plot, setPix, h, huv]
  · refine ⟨by simp [fb_plot, h], by simp [fb_plot, h], ?_, fun _ => by simp [fb_plot, h]⟩
    simp [fb_plot, h]

/-- C10 witness: an out-of-bounds plot on a concrete surface is the
identity. -/
theorem fb_plot_spec_witness : fb_plot (fb_create 4 4) 99 0 = fb_create 4 4 :=
  (fb_plot_spec (fb_create 4 4) 99 0 0 0).2.2.2 (by decide)

/-- C6: on Q16.16 inputs whose biased sum f + 2^15 stays inside int32,
fixed_to_int is the arithmetic right shift of f + 2^15 by 16 bits, i.e.
the floor of (f + 32768) / 65536, which is f / 2^16 rounded to the
nearest integer with exact halves rounded up toward positive infinity. -/
theorem fixed_to_int_spec (f : Int) (h1 : -(2 ^ 31) ≤ f + 2 ^ 15)
    (h2 : f + 2 ^ 15 < 2 ^ 31) :
    fixed_to_int f = (f + 2 ^ 15) / 2 ^ 16 ∧
    fixed_to_int f = ⌊(f : ℚ) / 2 ^ 16 + 1 / 2⌋ := by
  have e31 : ((2 : Int) ^ 31) = 2147483648 := by norm_num
  have e15 : ((2 : Int) ^ 15) = 32768 := by norm_num
  rw [e31, e15] at h1 h2
  have hw : wrap32 (f + 32768) = f + 32768 := by
    unfold wrap32
    have h3 : (f + 32768 + 2 ^ 31) % 2 ^ 32 = f + 32768 + 2 ^ 31 :=
      Int.emod_eq_of_lt (by rw [e31] at *; omega) (by norm_num at *; omega)
    rw [h3]; ring
  constructor
  · unfold fixed_to_int
    rw [hw]
    norm_num
  · unfold fixed_to_int
    rw [hw]
    have e : ((f : ℚ) / 2 ^ 16 + 1 / 2) = (((f + 32768 : Int) : ℚ) / ((65536 : ℕ) : ℚ)) := by
      push_cast; ring
    rw [e, Rat.floor_intCast_div_natCast]
    norm_num

/-- C6 witness: at the exact tie f = 98304 (one and a half in Q16.16) the
hypotheses hold and the rounding characterization applies. -/
theorem fixed_to_int_spec_witness :
    (-(2 ^ 31) ≤ (98304 : Int) + 2 ^ 15) ∧ ((98304 : Int) + 2 ^ 15 < 2 ^ 31) ∧
    fixed_to_int 98304 = ⌊((98304 : Int) : ℚ) / 2 ^ 16 + 1 / 2⌋ :=
  ⟨by norm_num, by norm_num, (fixed_to_int_spec 98304 (by norm_num) (by norm_num)).2⟩

/-- C5: for every center and every radius at most 0, every sweep variant
returns pixel count 0 and hands back the destination surface untouched. -/
theorem radius_nonpos_noop (r : Int) (h : r ≤ 0) (fuel : Nat)
    (fb : Framebuffer) (cx cy : Int) :
    circle_df2_float_sym8 fuel fb cx cy r = some (fb, 0) ∧
    circle_df2_fixed_sym8 fuel fb cx cy r = some (fb, 0) ∧
    circle_coupled_float_sym8 fuel fb cx cy r = some (fb, 0) ∧
    circle_coupled_fixed_sym8 fuel fb cx cy r = some (fb, 0) ∧
    circle_bresenham fuel fb cx cy r = some (fb, 0) ∧
    df2_full fb r = (fb, 0) ∧
    df2_sym8 fuel fb r = some (fb, 0) := by
  refine ⟨?_, ?_, ?_, ?_, ?_, ?_, ?_⟩
  · simp [circle_df2_float_sym8, h]
  · simp [circle_df2_fixed_sym8, h]
  · simp [circle_coupled_float_sym8, h]
  · simp [circle_coupled_fixed_sym8, h]
  · simp [circle_bresenham, h]
  · simp [df2_full, h]
  · simp [df2_sym8, h]

/-- C5 witness: radius -5 on a concrete surface is a no-op for the fixed
DF2 sweep and for the full-circle sweep. -/
theorem radius_nonpos_noop_witness :
    ((-5 : Int) ≤ 0) ∧
    circle_df2_fixed_sym8 7 fbEx 0 0 (-5) = some (fbEx, 0) ∧
    df2_full fbEx (-5) = (fbEx, 0) :=
  ⟨by decide, (radius_nonpos_noop (-5) (by decide) 7 fbEx 0 0).2.1,
    (radius_nonpos_noop (-5) (by decide) 7 fbEx 0 0).2.2.2.2.2.1⟩

/-- C4: the octant expander emits exactly the eight symmetric points of
(x, y) translated by the center, in the multiset sense, by folding
fb_plot over them in source order; it never deduplicates, at y = 0 or
x = y the emitted points repeat, and the Boolean surface absorbs a
repeated plot idempotently. -/
theorem fb_plot8_spec (fb : Framebuffer) (cx cy x y : Int) :
    fb_plot8 fb cx cy x y =
      (plot8Points cx cy x y).foldl (fun g p => fb_plot g p.1 p.2) fb ∧
    (plot8Points cx cy x y).Perm (specExpand cx cy x y) ∧
    (∀ g : Framebuffer, ∀ px py : Int,
      fb_plot (fb_plot g px py) px py = fb_plot g px py) ∧
    ((y = 0 ∨ x = y) → ¬ (plot8Points cx cy x y).Nodup) := by
  refine ⟨rfl, ?_, fun g px py => fb_plot_idem g px py, ?_⟩
  · unfold plot8Points specExpand
    exact List.Perm.cons _ ((List.Perm.swap _ _ _).trans
      (List.Perm.cons _ (List.Perm.cons _ (List.Perm.cons _
        (List.Perm.cons _ (List.Perm.swap _ _ _))))))
  · rintro (hy | hxy)
    · subst hy
      intro hnd
      simp [plot8Points, List.Nodup] at hnd
    · subst hxy
      intro hnd
      simp [plot8Points, List.Nodup] at hnd

/-- C4 witness: at the axis sample (2, 0) the expander emits duplicates. -/
theorem fb_plot8_spec_witness : ¬ (plot8Points 0 0 2 0).Nodup :=
  (fb_plot8_spec fbEx 0 0 2 0).2.2.2 (Or.inl rfl)

theorem df2FloatLoop_eq_octantDrive (r cx cy : Int) :
    ∀ (fuel n : Nat) (fb : Framebuffer) (pixels : Int),
      df2FloatLoop cx cy (spec_coeff r) (spec_scale r) fuel fb
        (specFloatState r n).1 (specFloatState r n).2 pixels =
      octantDrive (specFloatSample r) cx cy fuel n fb pixels := by
  intro fuel
  induction fuel with
  | zero => intro n fb pixels; rfl
  | succ k ih =>
    intro n fb pixels
    simp only [df2FloatLoop, octantDrive]
    have hx : roundC (specFloatState r n).2 = (specFloatSample r n).1 := rfl
    have hy : roundC (((specFloatState r n).2 - (specFloatState r n).1) * spec_scale r) =
        (specFloatSample r n).2 := rfl
    rw [hx, hy]
    by_cases hc : (specFloatSample r n).2 > (specFloatSample r n).1
    · simp [hc]
    · simp only [if_neg hc]
      have e2 : (specFloatState r (n + 1)).2 =
          spec_coeff r * (specFloatState r n).2 - (specFloatState r n).1 := by
        simp [specFloatState]
      have e1 : (specFloatState r (n + 1)).1 = (specFloatState r n).2 := by
        simp [specFloatState]
      rw [← e2, ← e1]
      exact ih (n + 1) _ _

theorem df2FixedLoop_eq_octantDrive (r cx cy : Int) :
    ∀ (fuel n : Nat) (fb : Framebuffer) (pixels : Int),
      df2FixedLoop cx cy (specFixedCoeff r) (specFixedScale r) fuel fb
        (specFixedState r n).1 (specFixedState r n).2 pixels =
      octantDrive (specFixedSample r) cx cy fuel n fb pixels := by
  intro fuel
  induction fuel with
  | zero => intro n fb pixels; rfl
  | succ k ih =>
    intro n fb pixels
    simp only [df2FixedLoop, octantDrive]
    have hx : fixed_to_int (specFixedState r n).2 = (specFixedSample r n).1 := rfl
    have hy : fixed_to_int (fp_mul (wrap32 ((specFixedState r n).2 - (specFixedState r n).1))
        (specFixedScale r)) = (specFixedSample r n).2 := rfl
    rw [hx, hy]
    by_cases hc : (specFixedSample r n).2 > (specFixedSample r n).1
    · simp [hc]
    · simp only [if_neg hc]
      have e2 : (specFixedState r (n + 1)).2 =
          wrap32 (fp_mul (specFixedCoeff r) (specFixedState r n).2 - (specFixedState r n).1) := by
        simp [specFixedState]
      have e1 : (specFixedState r (n + 1)).1 = (specFixedState r n).2 := by
        simp [specFixedState]
      rw [← e2, ← e1]
      exact ih (n + 1) _ _

/-- C1: for every radius r over 0 the DF2 sweeps are exactly the octant
driver over the sample stream of the spec: coefficients
omega = 1 / (1.5 r), coeff = 2 cos omega, scale = -1 / omega, state
started at (w[n-1], w[n-2]) = (r, r cos omega), advanced by the single
multiply w[n] = coeff w[n-1] - w[n-2], and sample
(round w[n-1], round((w[n-1] - w[n-2]) scale)); the fixed sweep uses the
Q16.16 images of the same formulas. -/
theorem df2_sweeps_follow_spec (r : Int) (h : 0 < r) :
    (∀ (fuel : Nat) (fb : Framebuffer) (cx cy : Int),
       circle_df2_float_sym8 fuel fb cx cy r =
         octantDrive (specFloatSample r) cx cy fuel 0 fb 0) ∧
    (∀ (fuel : Nat) (fb : Framebuffer) (cx cy : Int),
       circle_df2_fixed_sym8 fuel fb cx cy r =
         octantDrive (specFixedSample r) cx cy fuel 0 fb 0) := by
  constructor
  · intro fuel fb cx cy
    unfold circle_df2_float_sym8
    rw [if_neg (by omega : ¬ r ≤ 0)]
    exact df2FloatLoop_eq_octantDrive r cx cy fuel 0 fb 0
  · intro fuel fb cx cy
    unfold circle_df2_fixed_sym8
    rw [if_neg (by omega : ¬ r ≤ 0)]
    exact df2FixedLoop_eq_octantDrive r cx cy fuel 0 fb 0

/-- C1 witness: the refinement applied at radius 1. -/
theorem df2_sweeps_follow_spec_witness :
    (0 : Int) < 1 ∧
    circle_df2_fixed_sym8 5 fbEx 0 0 1 = octantDrive (specFixedSample 1) 0 0 5 0 fbEx 0 :=
  ⟨by decide, (df2_sweeps_follow_spec 1 (by decide)).2 5 fbEx 0 0⟩

theorem df2FullLoop_eq_fullDrive (r : Int) :
    ∀ (n i : Nat) (fb : Framebuffer) (drawn : Int),
      df2FullLoop (specFixedCoeff r) (specFixedScale r) n fb
        (specFixedState r i).1 (specFixedState r i).2 drawn =
      fullDrive (specFixedSample r) n i fb drawn := by
  intro n
  induction n with
  | zero => intro i fb drawn; rfl
  | succ k ih =>
    intro i fb drawn
    simp only [df2FullLoop, fullDrive]
    have hx : fixed_to_int (specFixedState r i).2 = (specFixedSample r i).1 := rfl
    have hy : fixed_to_int (fp_mul (wrap32 ((specFixedState r i).2 - (specFixedState r i).1))
        (specFixedScale r)) = (specFixedSample r i).2 := rfl
    rw [hx, hy]
    have e2 : (specFixedState r (i + 1)).2 =
        wrap32 (fp_mul (specFixedCoeff r) (specFixedState r i).2 - (specFixedState r i).1) := by
      simp [specFixedState]
    have e1 : (specFixedState r (i + 1)).1 = (specFixedState r i).2 := by
      simp [specFixedState]
    rw [← e2, ← e1]
    by_cases hb : 0 ≤ (specFixedSample r i).1 + fb.width / 2 ∧
        (specFixedSample r i).1 + fb.width / 2 < fb.width ∧
        0 ≤ (specFixedSample r i).2 + fb.height / 2 ∧
        (specFixedSample r i).2 + fb.height / 2 < fb.height
    · rw [if_pos hb, if_pos hb]
      by_cases hp : fb.pix ((specFixedSample r i).1 + fb.width / 2)
          ((specFixedSample r i).2 + fb.height / 2) = true
      · rw [if_pos hp, if_pos hp]
        exact ih (i + 1) _ _
      · rw [if_neg hp, if_neg hp]
        exact ih (i + 1) _ _
    · rw [if_neg hb, if_neg hb]
      exact ih (i + 1) _ _

/-- C7: for every radius r over 0 the full-circle sweep is the fixed-step
driver of the spec: it runs exactly
steps = trunc(2 pi / omega) + 10 = floor(2 pi (1.5 r)) + 10 iterations
computed in advance, never stops on a sample condition, and silently
drops samples that fall outside the surface. -/
theorem df2_full_runs_fixed_steps (r : Int) (h : 0 < r) (fb : Framebuffer) :
    df2_full fb r =
      fullDrive (specFixedSample r)
        (truncInt (2 * Real.pi / spec_omega r) + 10).toNat 0 fb 0 ∧
    truncInt (2 * Real.pi / spec_omega r) = ⌊2 * Real.pi * (1.5 * (r : ℝ))⌋ := by
  have hr : (0 : ℝ) < (r : ℝ) := by exact_mod_cast h
  have homega : 2 * Real.pi / spec_omega r = 2 * Real.pi * (1.5 * (r : ℝ)) := by
    unfold spec_omega
    rw [one_div, div_inv_eq_mul]
  constructor
  · unfold df2_full
    rw [if_neg (by omega : ¬ r ≤ 0)]
    exact df2FullLoop_eq_fullDrive r _ 0 fb 0
  · rw [homega]
    unfold truncInt
    rw [if_pos]
    positivity

/-- C7 witness: the fixed-step refinement applied at radius 1. -/
theorem df2_full_runs_fixed_steps_witness :
    (0 : Int) < 1 ∧
    df2_full fbEx 1 =
      fullDrive (specFixedSample 1)
        (truncInt (2 * Real.pi / spec_omega 1) + 10).toNat 0 fbEx 0 :=
  ⟨by decide, (df2_full_runs_fixed_steps 1 (by decide) fbEx).1⟩

/-- C8: the critical radius is computed as 0.47 * 2 ^ (bits / 2), and the
formula reproduces the published table within ten percent: about 120 at
16 fractional bits, about 21800 at 31, about 31000000 at 52. -/
theorem criticalRadius_table :
    (∀ bits : Int, criticalRadius bits = 0.47 * (2 : ℝ) ^ ((bits : ℝ) / 2)) ∧
    |criticalRadius 16 - 120| ≤ 12 ∧
    |criticalRadius 31 - 21800| ≤ 2180 ∧
    |criticalRadius 52 - 31000000| ≤ 3100000 := by
  have h16 : criticalRadius 16 = 0.47 * 2 ^ (8 : ℕ) := by
    unfold criticalRadius
    rw [show (((16 : Int) : ℝ)) / 2 = ((8 : ℕ) : ℝ) by norm_num, Real.rpow_natCast]
  have h52 : criticalRadius 52 = 0.47 * 2 ^ (26 : ℕ) := by
    unfold criticalRadius
    rw [show (((52 : Int) : ℝ)) / 2 = ((26 : ℕ) : ℝ) by norm_num, Real.rpow_natCast]
  have h31 : criticalRadius 31 = 0.47 * Real.sqrt 2147483648 := by
    unfold criticalRadius
    rw [show (((31 : Int) : ℝ)) / 2 = ((31 : ℕ) : ℝ) * (1 / 2) by norm_num,
      Real.rpow_mul (by norm_num : (0 : ℝ) ≤ 2), Real.rpow_natCast,
      show ((2 : ℝ) ^ (31 : ℕ)) = 2147483648 by norm_num, ← Real.sqrt_eq_rpow]
  have hlo : (46340 : ℝ) ≤ Real.sqrt 2147483648 := by
    have e : (46340 : ℝ) = Real.sqrt (46340 ^ 2) := (Real.sqrt_sq (by norm_num)).symm
    rw [e]
    exact Real.sqrt_le_sqrt (by norm_num)
  have hhi : Real.sqrt 2147483648 ≤ 46341 := by
    have e : (46341 : ℝ) = Real.sqrt (46341 ^ 2) := (Real.sqrt_sq (by norm_num)).symm
    rw [e]
    exact Real.sqrt_le_sqrt (by norm_num)
  refine ⟨fun bits => rfl, ?_, ?_, ?_⟩
  · rw [h16, abs_le]
    norm_num
  · rw [h31, abs_le]
    constructor <;> nlinarith
  · rw [h52, abs_le]
    norm_num

theorem fb_count_pixels_create (w h : Int) : fb_count_pixels (fb_create w h) = 0 := by
  simp [fb_count_pixels, fb_create]

theorem fb_count_pixels_setPix (fb : Framebuffer) (a b : Int)
    (ha0 : 0 ≤ a) (haw : a < fb.width) (hb0 : 0 ≤ b) (hbh : b < fb.height)
    (hfresh : fb.pix a b = false) :
    fb_count_pixels (setPix fb a b) = fb_count_pixels fb + 1 := by
  unfold fb_count_pixels setPix
  simp only
  have hset : ((Finset.range fb.width.toNat ×ˢ Finset.range fb.height.toNat).filter
        (fun p => (if (p.1 : Int) = a ∧ (p.2 : Int) = b then true
          else fb.pix (p.1 : Int) (p.2 : Int)) = true)) =
      insert (a.toNat, b.toNat)
        ((Finset.range fb.width.toNat ×ˢ Finset.range fb.height.toNat).filter
          (fun p => fb.pix (p.1 : Int) (p.2 : Int) = true)) := by
    ext q
    obtain ⟨q1, q2⟩ := q
    rw [Finset.mem_insert, Finset.mem_filter, Finset.mem_filter]
    constructor
    · rintro ⟨hq, hpq⟩
      by_cases hqa : ((q1 : Int) = a ∧ (q2 : Int) = b)
      · left
        rw [Prod.mk.injEq]
        obtain ⟨hqa1, hqa2⟩ := hqa
        exact ⟨by omega, by omega⟩
      · right
        rw [if_neg hqa] at hpq
        exact ⟨hq, hpq⟩
    · rintro (hq | ⟨hq, hpq⟩)
      · rw [Prod.mk.injEq] at hq
        obtain ⟨hq1, hq2⟩ := hq
        subst hq1
        subst hq2
        constructor
        · rw [Finset.mem_product, Finset.mem_range, Finset.mem_range]
          constructor
          · omega
          · omega
        · rw [if_pos ⟨by omega, by omega⟩]
      · refine ⟨hq, ?_⟩
        by_cases hqa : ((q1 : Int) = a ∧ (q2 : Int) = b)
        · rw [if_pos hqa]
        · rw [if_neg hqa]
          exact hpq
  rw [hset, Finset.card_insert_of_not_mem]
  · push_cast
    ring
  · rw [Finset.mem_filter]
    rintro ⟨hmem2, hpix⟩
    rw [show ((a.toNat : Int)) = a by omega, show ((b.toNat : Int)) = b by omega,
      hfresh] at hpix
    exact Bool.false_ne_true hpix

theorem df2FullLoop_count (coeff scale : Int) :
    ∀ (n : Nat) (fb : Framebuffer) (w0 w1 d : Int),
      (df2FullLoop coeff scale n fb w0 w1 d).2 -
        fb_count_pixels (df2FullLoop coeff scale n fb w0 w1 d).1 =
      d - fb_count_pixels fb := by
  intro n
  induction n with
  | zero => intro fb w0 w1 d; rfl
  | succ k ih =>
    intro fb w0 w1 d
    simp only [df2FullLoop]
    by_cases hb : 0 ≤ fixed_to_int w1 + fb.width / 2 ∧
        fixed_to_int w1 + fb.width / 2 < fb.width ∧
        0 ≤ fixed_to_int (fp_mul (wrap32 (w1 - w0)) scale) + fb.height / 2 ∧
        fixed_to_int (fp_mul (wrap32 (w1 - w0)) scale) + fb.height / 2 < fb.height
    · rw [if_pos hb]
      by_cases hp : fb.pix (fixed_to_int w1 + fb.width / 2)
          (fixed_to_int (fp_mul (wrap32 (w1 - w0)) scale) + fb.height / 2) = true
      · rw [if_pos hp]
        exact ih fb w1 _ d
      · rw [if_neg hp]
        rw [ih (setPix fb _ _) w1 _ (d + 1)]
        rw [fb_count_pixels_setPix fb _ _ hb.1 hb.2.1 hb.2.2.1 hb.2.2.2
          (Bool.not_eq_true _ ▸ hp)]
        ring
    · rw [if_neg hb]
      exact ih fb w1 _ d

/-- C2 amended: the fair comparison sweeps satisfy the contract: df2_sym8
returns the count of set pixels of the final surface, and df2_full run on
a freshly created (all clear) surface returns exactly the number of
distinct in-bounds pixels set by the call.  (The benchmark sym8 variants
instead return 8 times the iteration count, with no clipping and no
deduplication; see the counterexample.) -/
theorem fair_sweeps_return_surface_count :
    (∀ (fuel : Nat) (fb : Framebuffer) (r : Int) (out : Framebuffer × Int),
       df2_sym8 fuel fb r = some out → fb_count_pixels fb = 0 →
       out.2 = fb_count_pixels out.1) ∧
    (∀ (w h r : Int),
       (df2_full (fb_create w h) r).2 =
         fb_count_pixels (df2_full (fb_create w h) r).1) := by
  constructor
  · intro fuel fb r out hout hclear
    unfold df2_sym8 at hout
    by_cases hr : r ≤ 0
    · rw [if_pos hr] at hout
      obtain rfl : (fb, (0 : Int)) = out := Option.some.inj hout
      exact hclear.symm
    · rw [if_neg hr] at hout
      obtain ⟨p, _, hfp⟩ := Option.map_eq_some'.mp hout
      rw [← hfp]
  · intro w h r
    by_cases hr : r ≤ 0
    · have heq0 : df2_full (fb_create w h) r = (fb_create w h, 0) := by
        unfold df2_full
        rw [if_pos hr]
      rw [heq0]
      exact (fb_count_pixels_create w h).symm
    · have heq : df2_full (fb_create w h) r =
          df2FullLoop (to_fixed (2 * Real.cos (1 / (1.5 * (r : ℝ)))))
            (to_fixed (-1 / (1 / (1.5 * (r : ℝ)))))
            ((truncInt (2 * Real.pi / (1 / (1.5 * (r : ℝ)))) + 10).toNat)
            (fb_create w h)
            (to_fixed ((r : ℝ) * Real.cos (1 / (1.5 * (r : ℝ)))))
            (to_fixed ((r : Int) : ℝ)) 0 := by
        unfold df2_full
        rw [if_neg hr]
      rw [heq]
      have hinv := df2FullLoop_count (to_fixed (2 * Real.cos (1 / (1.5 * (r : ℝ)))))
        (to_fixed (-1 / (1 / (1.5 * (r : ℝ)))))
        ((truncInt (2 * Real.pi / (1 / (1.5 * (r : ℝ)))) + 10).toNat)
        (fb_create w h)
        (to_fixed ((r : ℝ) * Real.cos (1 / (1.5 * (r : ℝ)))))
        (to_fixed ((r : Int) : ℝ)) 0
      rw [fb_count_pixels_create] at hinv
      omega

/-- C2 amended witness: the zero radius sweep on a concrete clear surface
reports the count of the untouched surface. -/
theorem fair_sweeps_return_surface_count_witness :
    df2_sym8 0 fbEx 0 = some (fbEx, 0) ∧ fb_count_pixels fbEx = 0 ∧
    (0 : Int) = fb_count_pixels fbEx :=
  ⟨rfl, by decide,
    fair_sweeps_return_surface_count.1 0 fbEx 0 (fbEx, 0) rfl (by decide)⟩

theorem cos_two_thirds_bounds :
    (373 / 486 : ℝ) ≤ Real.cos (2 / 3) ∧ Real.cos (2 / 3) ≤ 383 / 486 := by
  have h := Real.cos_bound (show |(2 / 3 : ℝ)| ≤ 1 by rw [abs_of_nonneg] <;> norm_num)
  rw [abs_of_nonneg (by norm_num : (0 : ℝ) ≤ 2 / 3), abs_le] at h
  constructor
  · nlinarith [h.1]
  · nlinarith [h.2]

theorem roundC_nonneg_eq (t : ℝ) (n : Int) (h0 : 0 ≤ t)
    (hlb : (n : ℝ) ≤ t + 0.5) (hub : t + 0.5 < n + 1) : roundC t = n := by
  unfold roundC
  rw [if_pos h0, Int.floor_eq_iff]
  exact ⟨hlb, hub⟩

theorem roundC_neg_eq (t : ℝ) (n : Int) (h0 : ¬ 0 ≤ t)
    (hlb : (n : ℝ) - 1 < t - 0.5) (hub : t - 0.5 ≤ n) : roundC t = n := by
  unfold roundC
  rw [if_neg h0, Int.ceil_eq_iff]
  exact ⟨hlb, hub⟩

theorem df2FloatLoop_step (cx cy : Int) (c s : ℝ) (fuel : Nat)
    (fb : Framebuffer) (w0 w1 : ℝ) (p x y : Int)
    (hx : roundC w1 = x) (hy : roundC ((w1 - w0) * s) = y) (hxy : ¬ y > x) :
    df2FloatLoop cx cy c s (fuel + 1) fb w0 w1 p =
      df2FloatLoop cx cy c s fuel (fb_plot8 fb cx cy x y) w1 (c * w1 - w0) (p + 8) := by
  simp only [df2FloatLoop]
  rw [hx, hy, if_neg hxy]

theorem df2FloatLoop_break (cx cy : Int) (c s : ℝ) (fuel : Nat)
    (fb : Framebuffer) (w0 w1 : ℝ) (p x y : Int)
    (hx : roundC w1 = x) (hy : roundC ((w1 - w0) * s) = y) (hxy : y > x) :
    df2FloatLoop cx cy c s (fuel + 1) fb w0 w1 p = some (fb, p) := by
  simp only [df2FloatLoop]
  rw [hx, hy, if_pos hxy]

theorem fb_plot8_fbEx_one_zero : fb_plot8 fbEx 0 0 1 0 = fbEx := rfl

/-- C2 counterexample: at radius 1 and center (0, 0) on a one-cell
surface, the float DF2 sweep runs two iterations, every one of the
sixteen symmetric plots is clipped away, yet the function returns 16, not
the number of pixels set on the surface (which is 0).  Its return value
counts 8 per iteration with no clipping and no deduplication. -/
theorem sym8_return_is_not_surface_count :
    circle_df2_float_sym8 3 fbEx 0 0 1 = some (fbEx, 16) ∧
    fb_count_pixels fbEx ≠ 16 := by
  have hc := cos_two_thirds_bounds
  have hx0 : roundC (1 : ℝ) = 1 :=
    roundC_nonneg_eq 1 1 (by norm_num) (by norm_num) (by norm_num)
  have hy0 : roundC (((1 : ℝ) - Real.cos (2 / 3)) * (-1 / (2 / 3))) = 0 := by
    apply roundC_neg_eq
    · intro habs
      nlinarith [hc.2]
    · push_cast
      nlinarith [hc.1]
    · push_cast
      nlinarith [hc.2]
  have hx1 : roundC (Real.cos (2 / 3)) = 1 := by
    apply roundC_nonneg_eq
    · nlinarith [hc.1]
    · push_cast
      nlinarith [hc.1]
    · push_cast
      nlinarith [hc.2]
  have hy1 : roundC ((Real.cos (2 / 3) - 1) * (-1 / (2 / 3))) = 0 := by
    apply roundC_nonneg_eq
    · nlinarith [hc.2]
    · push_cast
      nlinarith [hc.2]
    · push_cast
      nlinarith [hc.1]
  have hx2 : roundC (2 * Real.cos (2 / 3) ^ 2 - 1) = 0 := by
    apply roundC_nonneg_eq
    · nlinarith [hc.1, hc.2]
    · push_cast
      nlinarith [hc.1, hc.2]
    · push_cast
      nlinarith [hc.1, hc.2]
  have hy2 : roundC ((2 * Real.cos (2 / 3) ^ 2 - 1 - Real.cos (2 / 3)) * (-1 / (2 / 3))) = 1 := by
    apply roundC_nonneg_eq
    · nlinarith [hc.1, hc.2]
    · push_cast
      nlinarith [hc.1, hc.2]
    · push_cast
      nlinarith [hc.1, hc.2]
  have main : ∀ f : Nat,
      df2FloatLoop 0 0 (2 * Real.cos (2 / 3)) (-1 / (2 / 3)) (f + 1 + 1 + 1) fbEx
        (Real.cos (2 / 3)) 1 0 = some (fbEx, 16) := by
    intro f
    refine (df2FloatLoop_step 0 0 _ _ (f + 1 + 1) fbEx _ _ 0 1 0 hx0 hy0
      (by decide)).trans ?_
    rw [fb_plot8_fbEx_one_zero]
    rw [show 2 * Real.cos (2 / 3) * 1 - Real.cos (2 / 3) = Real.cos (2 / 3) from by ring]
    refine (df2FloatLoop_step 0 0 _ _ (f + 1) fbEx _ _ (0 + 8) 1 0 hx1 hy1
      (by decide)).trans ?_
    rw [fb_plot8_fbEx_one_zero]
    rw [show 2 * Real.cos (2 / 3) * Real.cos (2 / 3) - 1 =
      2 * Real.cos (2 / 3) ^ 2 - 1 from by ring]
    refine (df2FloatLoop_break 0 0 _ _ f fbEx _ _ (0 + 8 + 8) 0 1 hx2 hy2
      (by decide)).trans ?_
    norm_num
  constructor
  · have h1 : circle_df2_float_sym8 3 fbEx 0 0 1 =
        df2FloatLoop 0 0 (2 * Real.cos (2 / 3)) (-1 / (2 / 3)) 3 fbEx
          (Real.cos (2 / 3)) 1 0 := by
      unfold circle_df2_float_sym8
      rw [if_neg (by decide : ¬ (1 : Int) ≤ 0)]
      norm_num
    rw [h1]
    have h2 := main 0
    rw [show (0 : Nat) + 1 + 1 + 1 = 3 from by norm_num] at h2
    exact h2
  · decide

/-- The closed form of the real DF2 state of the stability run at radius
1000: the first state component at iteration j. -/
noncomputable def stabW (j : Nat) : ℝ :=
  1000 * Real.cos (((j : ℝ) - 1) * (1 / 1500))

/-- The amplitude the stability loop samples at iteration j. -/
noncomputable def stabAmp (j : Nat) : ℝ :=
  Real.sqrt (stabW j * stabW j + stabW (j + 1) * stabW (j + 1))

theorem cos_small_bounds (x : ℝ) (h0 : 0 ≤ x) (h1 : x ≤ 1) :
    1 - x ^ 2 / 2 - x ^ 4 * (5 / 96) ≤ Real.cos x ∧
    Real.cos x ≤ 1 - x ^ 2 / 2 + x ^ 4 * (5 / 96) := by
  have h := Real.cos_bound (show |x| ≤ 1 by rw [abs_of_nonneg h0]; exact h1)
  rw [abs_of_nonneg h0, abs_le] at h
  constructor
  · linarith [h.1]
  · linarith [h.2]

theorem stabW_step (j : Nat) :
    2 * Real.cos (1 / 1500) * stabW (j + 1) - stabW j = stabW (j + 2) := by
  unfold stabW
  push_cast
  rw [show ((j : ℝ) + 2 - 1) * (1 / 1500) =
        ((j : ℝ) + 1 - 1) * (1 / 1500) + 1 / 1500 from by ring,
      show ((j : ℝ) - 1) * (1 / 1500) =
        ((j : ℝ) + 1 - 1) * (1 / 1500) - 1 / 1500 from by ring,
      Real.cos_add, Real.cos_sub]
  ring

theorem stabW_zero : stabW 0 = 1000 * Real.cos (1 / 1500) := by
  unfold stabW
  rw [show (((0 : Nat) : ℝ) - 1) * (1 / 1500) = -(1 / 1500) from by norm_num,
    Real.cos_neg]

theorem stabW_one : stabW 1 = 1000 := by
  unfold stabW
  rw [show (((1 : Nat) : ℝ) - 1) * (1 / 1500) = 0 from by norm_num, Real.cos_zero]
  norm_num

theorem stabAmp_sq (j : Nat) :
    stabW j * stabW j + stabW (j + 1) * stabW (j + 1) =
    1000000 * (1 + Real.cos (1 / 1500) *
      Real.cos ((2 * (j : ℝ) - 1) * (1 / 1500))) := by
  have key : ∀ x y : ℝ, Real.cos x * Real.cos x + Real.cos y * Real.cos y =
      1 + Real.cos (x + y) * Real.cos (y - x) := by
    intro x y
    have h1 := Real.cos_sq x
    have h2 := Real.cos_sq y
    have e1 : Real.cos (2 * x) =
        Real.cos (x + y) * Real.cos (y - x) + Real.sin (x + y) * Real.sin (y - x) := by
      rw [show 2 * x = (x + y) - (y - x) from by ring, Real.cos_sub]
    have e2 : Real.cos (2 * y) =
        Real.cos (x + y) * Real.cos (y - x) - Real.sin (x + y) * Real.sin (y - x) := by
      rw [show 2 * y = (x + y) + (y - x) from by ring, Real.cos_add]
    nlinarith [h1, h2, e1, e2]
  unfold stabW
  push_cast
  have k2 := key (((j : ℝ) - 1) * (1 / 1500)) ((j : ℝ) * (1 / 1500))
  rw [show (((j : ℝ) - 1) * (1 / 1500)) + ((j : ℝ) * (1 / 1500)) =
        (2 * (j : ℝ) - 1) * (1 / 1500) from by ring,
      show ((j : ℝ) * (1 / 1500)) - (((j : ℝ) - 1) * (1 / 1500)) =
        (1 : ℝ) / 1500 from by ring] at k2
  rw [show ((j : ℝ) + 1 - 1) * (1 / 1500) = (j : ℝ) * (1 / 1500) from by ring]
  nlinarith [k2]

theorem cos_inv_1500_bounds :
    (1 : ℝ) - 23 / 100000000 ≤ Real.cos (1 / 1500) ∧
    Real.cos (1 / 1500) < 1 := by
  have h := cos_small_bounds (1 / 1500) (by norm_num) (by norm_num)
  constructor
  · nlinarith [h.1]
  · nlinarith [h.2]

theorem stabAmp_pos (j : Nat) : 0 < stabAmp j := by
  unfold stabAmp
  apply Real.sqrt_pos.mpr
  rw [stabAmp_sq]
  have h1 := cos_inv_1500_bounds
  have h2 : -1 ≤ Real.cos ((2 * (j : ℝ) - 1) * (1 / 1500)) := Real.neg_one_le_cos _
  have hpos : 0 < Real.cos (1 / 1500) := by nlinarith [h1.1]
  have hprod : Real.cos (1 / 1500) * (-1) ≤
      Real.cos (1 / 1500) * Real.cos ((2 * (j : ℝ) - 1) * (1 / 1500)) :=
    mul_le_mul_of_nonneg_left h2 (le_of_lt hpos)
  nlinarith [hprod, h1.2]

theorem stabLoop_props :
    ∀ (n j : Nat) (M m : ℝ),
      ((stabLoop (2 * Real.cos (1 / 1500)) n (stabW j) (stabW (j + 1)) M m).2.2.2 ≤ m) ∧
      (M ≤ (stabLoop (2 * Real.cos (1 / 1500)) n (stabW j) (stabW (j + 1)) M m).2.2.1) ∧
      (0 < m →
        0 < (stabLoop (2 * Real.cos (1 / 1500)) n (stabW j) (stabW (j + 1)) M m).2.2.2) ∧
      (∀ k, k < n →
        (stabLoop (2 * Real.cos (1 / 1500)) n (stabW j) (stabW (j + 1)) M m).2.2.2 ≤
          stabAmp (j + k)) := by
  intro n
  induction n with
  | zero =>
    intro j M m
    refine ⟨by simp [stabLoop], by simp [stabLoop], ?_, fun k hk => absurd hk (by omega)⟩
    intro h
    simpa [stabLoop] using h
  | succ k ih =>
    intro j M m
    have hun : stabLoop (2 * Real.cos (1 / 1500)) (k + 1) (stabW j) (stabW (j + 1)) M m =
        stabLoop (2 * Real.cos (1 / 1500)) k (stabW (j + 1)) (stabW (j + 2))
          (max M (stabAmp j)) (min m (stabAmp j)) := by
      simp only [stabLoop, stabAmp]
      rw [stabW_step j]
    rw [hun]
    obtain ⟨ih1, ih2, ih3, ih4⟩ := ih (j + 1) (max M (stabAmp j)) (min m (stabAmp j))
    refine ⟨le_trans ih1 (min_le_left m _), le_trans (le_max_left M _) ih2, ?_, ?_⟩
    · intro hm
      exact ih3 (lt_min hm (stabAmp_pos j))
    · intro t ht
      cases t with
      | zero =>
        simpa using le_trans ih1 (min_le_right m (stabAmp j))
      | succ t2 =>
        have h := ih4 t2 (by omega)
        rw [show j + (t2 + 1) = j + 1 + t2 from by omega]
        exact h

theorem c9_amp_small : stabAmp 2357 ≤ 1 := by
  have hS : stabW 2357 * stabW 2357 + stabW (2357 + 1) * stabW (2357 + 1) ≤ 1 := by
    rw [stabAmp_sq 2357]
    push_cast
    rw [show (2 * (2357 : ℝ) - 1) * (1 / 1500) = 4713 / 1500 from by norm_num]
    obtain ⟨d, hd⟩ : ∃ d : ℝ, d = (4713 : ℝ) / 1500 - Real.pi := ⟨_, rfl⟩
    have hpi : Real.cos ((4713 : ℝ) / 1500) = -Real.cos d := by
      rw [show (4713 : ℝ) / 1500 = d + Real.pi from by rw [hd]; ring,
        Real.cos_add, Real.cos_pi, Real.sin_pi]
      ring
    rw [hpi]
    have hd1 : 0 < d := by rw [hd]; nlinarith [Real.pi_lt_d6]
    have hd2 : d < 0.00041 := by rw [hd]; nlinarith [Real.pi_gt_d6]
    have hdsq : d ^ 2 ≤ 0.00000017 := by
      nlinarith [mul_le_mul (le_of_lt hd2) (le_of_lt hd2) (le_of_lt hd1)
        (by norm_num : (0 : ℝ) ≤ 0.00041)]
    have hd4 : d ^ 4 ≤ 0.0000000000001 := by nlinarith [hdsq, sq_nonneg d, sq_nonneg (d ^ 2)]
    have hdcos := cos_small_bounds d (le_of_lt hd1) (by linarith)
    have hdlo : (1 : ℝ) - 9 / 100000000 ≤ Real.cos d := by nlinarith [hdcos.1, hdsq, hd4]
    have hwlo := cos_inv_1500_bounds
    nlinarith [hdlo, hwlo.1, Real.cos_le_one (1 / 1500), Real.cos_le_one d]
  unfold stabAmp
  calc Real.sqrt (stabW 2357 * stabW 2357 + stabW (2357 + 1) * stabW (2357 + 1))
      ≤ Real.sqrt 1 := Real.sqrt_le_sqrt hS
    _ = 1 := Real.sqrt_one

theorem c9_drift_ge : (1000 : ℝ) ≤ analyze_stability 1000 100 := by
  have e1 : (1 : ℝ) / (1.5 * ((1000 : Int) : ℝ)) = 1 / 1500 := by norm_num
  have e2 : ((100 : Int) : ℝ) * 2 * Real.pi / (1 / (1.5 * ((1000 : Int) : ℝ))) =
      300000 * Real.pi := by
    rw [e1, one_div, div_inv_eq_mul]
    push_cast
    ring
  have heq : analyze_stability 1000 100 =
      (stabLoop (2 * Real.cos (1 / 1500)) ((truncInt (300000 * Real.pi)).toNat)
        (stabW 0) (stabW 1) (stabAmp 0) (stabAmp 0)).2.2.1 /
      (stabLoop (2 * Real.cos (1 / 1500)) ((truncInt (300000 * Real.pi)).toNat)
        (stabW 0) (stabW 1) (stabAmp 0) (stabAmp 0)).2.2.2 := by
    simp only [analyze_stability]
    rw [e2, e1]
    rw [show ((1000 : Int) : ℝ) * Real.cos (1 / 1500) = stabW 0 from by
          rw [stabW_zero]; push_cast; ring,
        show ((1000 : Int) : ℝ) = stabW 1 from by rw [stabW_one]; push_cast; ring]
    rfl
  have hsteps : 2358 ≤ (truncInt (300000 * Real.pi)).toNat := by
    unfold truncInt
    rw [if_pos (by positivity)]
    have h2 : (2358 : Int) ≤ ⌊(300000 : ℝ) * Real.pi⌋ :=
      Int.le_floor.mpr (by push_cast; nlinarith [Real.pi_gt_d6])
    omega
  have hstate1 : stabW (0 + 1) = stabW 1 := rfl
  obtain ⟨hp1, hp2, hp3, hp4⟩ :=
    stabLoop_props ((truncInt (300000 * Real.pi)).toNat) 0 (stabAmp 0) (stabAmp 0)
  rw [hstate1] at hp1 hp2 hp3 hp4
  have hminle1 : (stabLoop (2 * Real.cos (1 / 1500)) ((truncInt (300000 * Real.pi)).toNat)
      (stabW 0) (stabW 1) (stabAmp 0) (stabAmp 0)).2.2.2 ≤ 1 := by
    have h := hp4 2357 (by omega)
    rw [Nat.zero_add] at h
    exact le_trans h c9_amp_small
  have hminpos : 0 < (stabLoop (2 * Real.cos (1 / 1500)) ((truncInt (300000 * Real.pi)).toNat)
      (stabW 0) (stabW 1) (stabAmp 0) (stabAmp 0)).2.2.2 := hp3 (stabAmp_pos 0)
  have hinit : (1000 : ℝ) ≤ stabAmp 0 := by
    unfold stabAmp
    have h1 : Real.sqrt (stabW (0 + 1) * stabW (0 + 1)) ≤
        Real.sqrt (stabW 0 * stabW 0 + stabW (0 + 1) * stabW (0 + 1)) :=
      Real.sqrt_le_sqrt (by nlinarith [mul_self_nonneg (stabW 0)])
    have h2 : Real.sqrt (stabW (0 + 1) * stabW (0 + 1)) = 1000 := by
      rw [show stabW (0 + 1) = (1000 : ℝ) from by
        rw [show (0 + 1 : Nat) = 1 from rfl, stabW_one]]
      exact Real.sqrt_mul_self (by norm_num)
    linarith
  have hmax : (1000 : ℝ) ≤ (stabLoop (2 * Real.cos (1 / 1500))
      ((truncInt (300000 * Real.pi)).toNat)
      (stabW 0) (stabW 1) (stabAmp 0) (stabAmp 0)).2.2.1 := le_trans hinit hp2
  rw [heq, le_div_iff₀ hminpos]
  nlinarith [hminle1, hminpos, hmax]

/-- C9 counterexample: the reported drift of the stability run at radius
1000 over 100 revolutions is not below 1.01.  The tracked quantity
sqrt(w[n-1] squared plus w[n-2] squared) mixes two nearly parallel cosine
samples one small angular step apart, so it almost vanishes near the zero
crossings of the cosine wave instead of staying near the radius. -/
theorem analyze_stability_drift_not_small :
    ¬ (analyze_stability 1000 100 < 1.01) := by
  have h := c9_drift_ge
  intro habs
  linarith

/-- C9 amended: analyze_stability runs the real DF2 recurrence for
trunc(revolutions times 2 pi over omega) steps, tracks
amplitude = sqrt(w[n-1] squared plus w[n-2] squared) at every step and
reports max over min of it; but that quantity is far from conserved: at
radius 1000 and 100 revolutions the reported drift is at least 1000
rather than below 1.01. -/
theorem analyze_stability_drift_large : (1000 : ℝ) ≤ analyze_stability 1000 100 :=
  c9_drift_ge

/-- Structural half of the octant invariant: whenever the octant driver
returns, there is a first crossing index m: the sample at m has y over x,
every sample from the start up to m satisfies y at most x (these are
exactly the plotted ones), and the returned pixel counter confirms that
the crossing sample itself was not plotted. -/
theorem octantDrive_first_crossing (sample : Nat → Int × Int) (cx cy : Int) :
    ∀ (fuel n : Nat) (fb : Framebuffer) (p : Int) (out : Framebuffer × Int),
      octantDrive sample cx cy fuel n fb p = some out →
      ∃ m : Nat, n ≤ m ∧ (sample m).2 > (sample m).1 ∧
        (∀ k, n ≤ k → k < m → (sample k).2 ≤ (sample k).1) ∧
        out.2 = p + 8 * ((m : Int) - (n : Int)) := by
  intro fuel
  induction fuel with
  | zero =>
    intro n fb p out h
    exact absurd h (by simp [octantDrive])
  | succ f ih =>
    intro n fb p out h
    simp only [octantDrive] at h
    by_cases hc : (sample n).2 > (sample n).1
    · rw [if_pos hc] at h
      obtain rfl : (fb, p) = out := Option.some.inj h
      exact ⟨n, le_refl n, hc,
        fun k hk1 hk2 => absurd (lt_of_le_of_lt hk1 hk2) (lt_irrefl n), by simp⟩
    · rw [if_neg hc] at h
      obtain ⟨m, hm1, hm2, hm3, hm4⟩ := ih (n + 1) _ _ out h
      refine ⟨m, by omega, hm2, ?_, ?_⟩
      · intro k hk1 hk2
        rcases eq_or_lt_of_le hk1 with rfl | hlt
        · exact le_of_not_lt hc
        · exact hm3 k (by omega) hk2
      · rw [hm4]
        omega
